import Mathlib

/-!
Verification of the game-balance Monte Carlo simulator
(`src/tools/balance_simulator.py`) against its natural-language
specification.

The Python source is shallowly embedded below.  Python integers are `Int`
(Python `//` is floor division, embedded as `Int.fdiv`), Python lists are
`List`, the trait dictionary built by `load_game_data` (which keys every
trait by its own `id` field) is a `List Trait` looked up by `id`, and
Python sets are represented by lists queried only through membership
tests.  Python's stable `sorted`/`list.sort` is embedded as
`List.insertionSort`, which performs the same stable insertion (an element
is placed before the first element it compares `≤` to).  All random draws
(`random.randint`, the event shuffle) are passed in explicitly through a
`GameRand` oracle / a pre-shuffled event list, mirroring the spec's note that
randomness is pre-resolved input.
-/

set_option maxHeartbeats 1000000

/-- Embeds the `Trait` dataclass. -/
structure Trait where
  id : String
  name : String
  era_min : Int
  era_max : Int
  cost : Int
  complexity : Int
  tags : List String
  hard_prereqs : List String
  soft_prereqs : List String
  fecundity_bonus : Int
deriving DecidableEq

/-- Embeds the `Event` dataclass. -/
structure Event where
  name : String
  event_type : String
  safe_tags : List String
  doomed_tags : List String
  neutral_roll : Option Int
deriving DecidableEq

/-- Embeds the `Player` dataclass (all fields explicit; the dataclass
defaults are supplied at each construction site, as `simulate_game` does). -/
structure Player where
  name : String
  traits : List String
  markers : Int
  alleles : Int
  tiles_controlled : Int
  extinctions_survived : Int
  strategy : String
deriving DecidableEq

/-- The trait table `dict[str, Trait]`.  `load_game_data` keys each record
by its own `id`, so the dict is a list of traits looked up by `id`. -/
abbrev TraitDB := List Trait

/-- Embeds `trait_db[tid]` / `tid in trait_db` (dict lookup by key). -/
def lookupTrait (trait_db : TraitDB) (tid : String) : Option Trait :=
  trait_db.find? (fun t => t.id == tid)

/-- Embeds `Player.get_tags`.  The Python function builds a `set`; the set
is only ever queried through intersection-emptiness tests, for which a
list of the same elements is an equivalent representation. -/
def Player.get_tags (p : Player) (trait_db : TraitDB) : List String :=
  p.traits.foldl
    (fun acc tid =>
      match lookupTrait trait_db tid with
      | some t => acc ++ t.tags
      | none => acc)
    []

/-- Embeds `Player.get_complexity`. -/
def Player.get_complexity (p : Player) (trait_db : TraitDB) : Int :=
  p.traits.foldl
    (fun acc tid =>
      match lookupTrait trait_db tid with
      | some t => acc + t.complexity
      | none => acc)
    0

/-- Embeds `Player.get_fecundity_bonus`. -/
def Player.get_fecundity_bonus (p : Player) (trait_db : TraitDB) : Int :=
  p.traits.foldl
    (fun acc tid =>
      match lookupTrait trait_db tid with
      | some t => acc + t.fecundity_bonus
      | none => acc)
    0

/-- Embeds `Player.can_acquire`. -/
def Player.can_acquire (p : Player) (trait : Trait) (current_era : Int) : Bool :=
  if current_era < trait.era_min || current_era > trait.era_max then false
  else trait.hard_prereqs.all (fun pr => p.traits.contains pr)

/-- Embeds `Player.get_cost`: `sum(1 for p in trait.soft_prereqs if p in
self.traits)` is the fold counting owned soft prerequisites. -/
def Player.get_cost (p : Player) (trait : Trait) : Int :=
  let soft_count := trait.soft_prereqs.foldl
    (fun n pr => if p.traits.contains pr then n + 1 else n) (0 : Int)
  let discount := min soft_count 3
  max 0 (trait.cost - discount)

/-- Embeds `Player.score`. -/
def Player.score (p : Player) (trait_db : TraitDB) : Int :=
  let complexity := p.get_complexity trait_db
  let tile_bonus := p.tiles_controlled * 3
  p.markers * complexity + tile_bonus

/-- Embeds `simulate_allele_roll`; the two `random.randint(1, 6)` draws
are the explicit arguments `die1`, `die2`. -/
def simulate_allele_roll (player : Player) (trait_db : TraitDB) (die1 die2 : Int) : Int :=
  let base := die1 + die2
  let pop_bonus : Int :=
    if player.markers ≥ 7 then 2
    else if player.markers ≥ 4 then 1
    else 0
  let tile_bonus := player.tiles_controlled
  let fecundity := player.get_fecundity_bonus trait_db
  base + pop_bonus + tile_bonus + fecundity

/-- Embeds Python's `x or default` on an optional integer: both `None`
and `0` are falsy, anything else is returned unchanged. -/
def pyOrInt (x : Option Int) (default : Int) : Int :=
  match x with
  | none => default
  | some n => if n = 0 then default else n

/-- Embeds `simulate_extinction`.  The Python function mutates
`player.markers` / `player.extinctions_survived` and returns a bool; here
it returns the updated player together with that bool.  The
`random.randint(1, 6)` draw is the explicit argument `roll`. -/
def simulate_extinction (player : Player) (event : Event) (trait_db : TraitDB)
    (roll : Int) : Player × Bool :=
  if event.event_type ≠ "extinction" then (player, true)
  else
    let tags := player.get_tags trait_db
    let has_safe := tags.any (fun tg => event.safe_tags.contains tg)
    if has_safe then
      ({ player with extinctions_survived := player.extinctions_survived + 1 }, true)
    else
      let has_doomed := tags.any (fun tg => event.doomed_tags.contains tg)
      if has_doomed then
        let losses := Int.fdiv (player.markers + 1) 2
        ({ player with
            markers := max 1 (player.markers - losses),
            extinctions_survived := player.extinctions_survived + 1 }, false)
      else
        let threshold := pyOrInt event.neutral_roll 4
        if roll ≥ threshold then
          ({ player with extinctions_survived := player.extinctions_survived + 1 }, true)
        else
          let losses := Int.fdiv (player.markers + 1) 2
          ({ player with
              markers := max 1 (player.markers - losses),
              extinctions_survived := player.extinctions_survived + 1 }, false)

/-- Embeds `get_available_traits` (iteration over `trait_db.values()` in
insertion order, skipping owned traits, keeping acquirable ones). -/
def get_available_traits (player : Player) (era : Int) (trait_db : TraitDB) : List Trait :=
  trait_db.filter (fun trait =>
    !(player.traits.contains trait.id) && player.can_acquire trait era)

/-- The fixed survival-tag set of `generalist_strategy`. -/
def survival_tags : List String :=
  ["Burrowing", "Small", "Freshwater", "Deep-Sea", "Cold-Resistant"]

/-- Embeds `len(set(t.tags) & survival_tags)`: the number of distinct
tags of `t` that are survival tags. -/
def survCount (t : Trait) : Int :=
  ((t.tags.dedup).filter (fun tg => survival_tags.contains tg)).length

/-- Python's lexicographic comparison on an integer pair. -/
def pairLe (a b : Int × Int) : Prop :=
  a.1 < b.1 ∨ (a.1 = b.1 ∧ a.2 ≤ b.2)

instance pairLeDec : DecidableRel pairLe := fun a b =>
  inferInstanceAs (Decidable (a.1 < b.1 ∨ (a.1 = b.1 ∧ a.2 ≤ b.2)))

/-- Python's lexicographic comparison on an integer triple. -/
def tripLe (a b : Int × Int × Int) : Prop :=
  a.1 < b.1 ∨ (a.1 = b.1 ∧ pairLe a.2 b.2)

instance tripLeDec : DecidableRel tripLe := fun a b =>
  inferInstanceAs (Decidable (a.1 < b.1 ∨ (a.1 = b.1 ∧ pairLe a.2 b.2)))

/-- The sort key of `generalist_strategy`:
`(-len(set(t.tags) & survival_tags), player.get_cost(t))`. -/
def genKey (player : Player) (t : Trait) : Int × Int :=
  (-(survCount t), player.get_cost t)

/-- The sorting relation used by `sorted` in `generalist_strategy`
(stable sort by ascending key). -/
def genRel (player : Player) (a b : Trait) : Prop :=
  pairLe (genKey player a) (genKey player b)

instance genRelDec (player : Player) : DecidableRel (genRel player) := fun a b =>
  pairLeDec (genKey player a) (genKey player b)

/-- The shared greedy budget loop of both strategies: walk the sorted
traits, taking each whose discounted cost fits the remaining budget. -/
def greedyAcquire (player : Player) (sorted_traits : List Trait) (alleles : Int) :
    List String :=
  (sorted_traits.foldl
    (fun acc trait =>
      let cost := player.get_cost trait
      if cost ≤ acc.2 then (acc.1 ++ [trait.id], acc.2 - cost) else acc)
    (([] : List String), alleles)).1

/-- Embeds `generalist_strategy` (the `trait_db` parameter is unused by
the Python body as well). -/
def generalist_strategy (player : Player) (available : List Trait) (alleles : Int)
    (trait_db : TraitDB) : List String :=
  let sorted_traits := List.insertionSort (genRel player) available
  greedyAcquire player sorted_traits alleles

/-- Embeds the `clade_paths` dict of `specialist_strategy` together with
`clade_paths.get(target_clade, [])`. -/
def clade_paths (target_clade : String) : List String :=
  if target_clade = "Mammalia" then
    ["synapsid_skull", "endothermy", "fur", "mammary_glands", "live_birth", "placenta"]
  else if target_clade = "Aves" then
    ["diapsid_skull", "archosaur_posture", "hollow_bones", "feathers", "flight"]
  else if target_clade = "Crocodilia" then
    ["diapsid_skull", "archosaur_posture", "osteoderms", "crocodilian_form",
     "scales_reptilian", "burrowing"]
  else if target_clade = "Insecta" then
    ["segmentation", "exoskeleton", "six_legs", "insect_flight", "metamorphosis"]
  else []

/-- The `priority` key of `specialist_strategy`:
`(-int(in_path), path_index if in_path else 999, player.get_cost(t))`. -/
def specKey (player : Player) (target_traits : List String) (t : Trait) :
    Int × Int × Int :=
  let in_path := target_traits.contains t.id
  let path_index : Int :=
    if in_path then Int.ofNat (target_traits.indexOf t.id) else 999
  (if in_path then -1 else 0, path_index, player.get_cost t)

/-- The sorting relation used by `sorted` in `specialist_strategy`. -/
def specRel (player : Player) (target_traits : List String) (a b : Trait) : Prop :=
  tripLe (specKey player target_traits a) (specKey player target_traits b)

instance specRelDec (player : Player) (target_traits : List String) :
    DecidableRel (specRel player target_traits) := fun a b =>
  tripLeDec (specKey player target_traits a) (specKey player target_traits b)

/-- Embeds `specialist_strategy`. -/
def specialist_strategy (player : Player) (available : List Trait) (alleles : Int)
    (trait_db : TraitDB) (target_clade : String) : List String :=
  let target_traits := clade_paths target_clade
  let sorted_traits := List.insertionSort (specRel player target_traits) available
  greedyAcquire player sorted_traits alleles

/-- The random draws consumed by one game, indexed by era and player
position: the two income dice, the tile refresh, the extinction roll, and
each player's starting allele budget. -/
structure GameRand where
  initAlleles : Nat → Int
  die1 : Nat → Nat → Int
  die2 : Nat → Nat → Int
  tiles : Nat → Nat → Int
  extinction_roll : Nat → Nat → Int

/-- The fixed strategy rotation of `simulate_game`. -/
def strategies : List String := ["generalist", "Mammalia", "Aves", "Crocodilia"]

/-- Embeds the player-creation loop of `simulate_game` (Python
`range(num_players)` is empty for a non-positive count). -/
def initPlayers (num_players : Int) (r : GameRand) : List Player :=
  (List.range num_players.toNat).map (fun i =>
    { name := "Player " ++ toString (i + 1),
      traits := ["bilateral_symmetry"],
      markers := 3,
      alleles := r.initAlleles i,
      tiles_controlled := 0,
      extinctions_survived := 0,
      strategy := strategies.getD (i % strategies.length) "generalist" })

/-- Per-player update with the player's position, used to address the
`GameRand` oracle (Python's per-player loops mutate each list entry in place,
preserving order). -/
def mapWithIndex (f : Nat → Player → Player) : Nat → List Player → List Player
  | _, [] => []
  | i, p :: ps => f i p :: mapWithIndex f (i + 1) ps

/-- The income loop of one era: `player.alleles += simulate_allele_roll(...)`. -/
def incomePhase (trait_db : TraitDB) (r : GameRand) (era : Nat) (players : List Player) :
    List Player :=
  mapWithIndex
    (fun i p =>
      { p with alleles := p.alleles + simulate_allele_roll p trait_db (r.die1 era i) (r.die2 era i) })
    0 players

/-- The strategy dispatch of `simulate_game`: the `"generalist"` tag uses
`generalist_strategy`; any other tag is passed to `specialist_strategy`
as the target clade. -/
def choose_acquisitions (p : Player) (era : Nat) (trait_db : TraitDB) : List String :=
  let available := get_available_traits p (Int.ofNat era) trait_db
  if p.strategy = "generalist" then
    generalist_strategy p available p.alleles trait_db
  else
    specialist_strategy p available p.alleles trait_db p.strategy

/-- One iteration of the deduction loop of the acquisition phase: look
the chosen id up, recompute its discounted cost against the player's
current traits, and append/deduct only if it still fits the current
balance.  (The lookup cannot miss: chosen ids come from the table; the
`none` branch is dead code kept for totality.) -/
def acquireStep (trait_db : TraitDB) (q : Player) (tid : String) : Player :=
  match lookupTrait trait_db tid with
  | some trait =>
    let cost := q.get_cost trait
    if cost ≤ q.alleles then
      { q with traits := q.traits ++ [tid], alleles := q.alleles - cost }
    else q
  | none => q

/-- The deduction loop of the acquisition phase (`for tid in acquired`). -/
def applyAcquisitions (trait_db : TraitDB) (acquired : List String) (p : Player) :
    Player :=
  acquired.foldl (acquireStep trait_db) p

/-- The acquisition loop of one era. -/
def acquisitionPhase (trait_db : TraitDB) (era : Nat) (players : List Player) :
    List Player :=
  players.map (fun p => applyAcquisitions trait_db (choose_acquisitions p era trait_db) p)

/-- The population/territory refresh of one era:
`markers = min(12, markers + 1)` and a fresh random tile count. -/
def refreshPhase (r : GameRand) (era : Nat) (players : List Player) : List Player :=
  mapWithIndex
    (fun i p => { p with markers := min 12 (p.markers + 1), tiles_controlled := r.tiles era i })
    0 players

/-- Placeholder event for out-of-range indexing; its type is not
`"extinction"`, so it leaves every player unchanged. -/
def defaultEvent : Event :=
  { name := "", event_type := "", safe_tags := [], doomed_tags := [], neutral_roll := none }

/-- The event-resolution loop of one era (`events[era]` applied to every
player). -/
def eventPhase (trait_db : TraitDB) (events : List Event) (r : GameRand) (era : Nat)
    (players : List Player) : List Player :=
  let event := events.getD era defaultEvent
  mapWithIndex (fun i p => (simulate_extinction p event trait_db (r.extinction_roll era i)).1)
    0 players

/-- One era of `simulate_game`: income, acquisition, refresh, event — in
source order. -/
def eraStep (trait_db : TraitDB) (events : List Event) (r : GameRand) (era : Nat)
    (players : List Player) : List Player :=
  eventPhase trait_db events r era
    (refreshPhase r era
      (acquisitionPhase trait_db era
        (incomePhase trait_db r era players)))

/-- The first `k` iterations of the `for era in range(12)` loop. -/
def runErasUpTo (trait_db : TraitDB) (events : List Event) (r : GameRand) (k : Nat)
    (players : List Player) : List Player :=
  (List.range k).foldl (fun ps era => eraStep trait_db events r era ps) players

/-- One entry of `results["players"]`. -/
structure PlayerSummary where
  name : String
  strategy : String
  score : Int
  markers : Int
  complexity : Int
  trait_count : Nat
  extinctions_survived : Int
deriving DecidableEq

/-- Builds one entry of `results["players"]` from a final player. -/
def mkSummary (trait_db : TraitDB) (p : Player) : PlayerSummary :=
  { name := p.name,
    strategy := p.strategy,
    score := p.score trait_db,
    markers := p.markers,
    complexity := p.get_complexity trait_db,
    trait_count := p.traits.length,
    extinctions_survived := p.extinctions_survived }

/-- The comparison realised by `sort(key=lambda x: x["score"], reverse=True)`:
a summary may precede another when its score is at least as large; the
stable sort then keeps equal scores in creation order. -/
def rankRel (a b : PlayerSummary) : Prop := b.score ≤ a.score

instance rankRelDec : DecidableRel rankRel := fun a b =>
  inferInstanceAs (Decidable (b.score ≤ a.score))

instance rankRelTotal : IsTotal PlayerSummary rankRel :=
  ⟨fun a b => (le_total b.score a.score).imp (fun h => h) (fun h => h)⟩

instance rankRelTrans : IsTrans PlayerSummary rankRel :=
  ⟨fun _ _ _ h1 h2 => le_trans h2 h1⟩

/-- The result dict of `simulate_game`.  `results["players"][0]["name"]`
raises `IndexError` on an empty list; the winner is therefore an
`Option`, `none` marking that failing access. -/
structure GameResult where
  players : List PlayerSummary
  winner : Option String
  scores : List Int
deriving DecidableEq

/-- Embeds `simulate_game`: era events are the first 12 of the
pre-shuffled pool, players are created with the strategy rotation and a
random budget, 12 eras run, and the summaries are stable-sorted by
descending score with the top name declared winner. -/
def simulate_game (num_players : Int) (trait_db : TraitDB)
    (shuffled_events : List Event) (r : GameRand) : GameResult :=
  let events := shuffled_events.take 12
  let players := initPlayers num_players r
  let final := runErasUpTo trait_db events r 12 players
  let summaries := final.map (mkSummary trait_db)
  let ranked := List.insertionSort rankRel summaries
  { players := ranked,
    winner := ranked.head?.map (fun s => s.name),
    scores := final.map (fun p => p.score trait_db) }

/-- Embeds the `strategy_wins` tally of `run_simulation`: a
`defaultdict(int)` incremented once per game at the winner's strategy,
keys appearing in first-win order. -/
def strategy_wins (winners : List String) : List (String × Nat) :=
  winners.foldl
    (fun acc s =>
      if acc.any (fun kv => kv.1 == s) then
        acc.map (fun kv => if kv.1 == s then (kv.1, kv.2 + 1) else kv)
      else acc ++ [(s, 1)])
    []

/-- Embeds `win_rates = {s: w/num_games for s, w in strategy_wins.items()}`
(the values, in key order; exact rationals stand in for Python floats). -/
def win_rates (winners : List String) (num_games : Nat) : List ℚ :=
  (strategy_wins winners).map (fun kv => (kv.2 : ℚ) / (num_games : ℚ))

/-- Embeds Python `max` over a non-empty collection (0 on the empty list,
where Python would raise). -/
def max_rate (rates : List ℚ) : ℚ :=
  match rates with
  | [] => 0
  | x :: xs => xs.foldl max x

/-- Embeds Python `min` over a non-empty collection (0 on the empty list,
where Python would raise). -/
def min_rate (rates : List ℚ) : ℚ :=
  match rates with
  | [] => 0
  | x :: xs => xs.foldl min x

/-- Embeds the balance assessment of `run_simulation`: `true` is the
`BALANCED` branch (`max_rate - min_rate < 0.15`), `false` the
`IMBALANCED` one. -/
def balance_verdict (winners : List String) (num_games : Nat) : Bool :=
  decide (max_rate (win_rates winners num_games) - min_rate (win_rates winners num_games)
    < 15 / 100)

/-- Modelled from the claim's words, for comparison with
`balance_verdict`: the win rate of every strategy in play is `wins/N`,
zero-win strategies included, and the verdict compares the spread of
those rates against the same 0.15 threshold. -/
def balance_verdict_spec (winners : List String) (strategies_in_play : List String)
    (num_games : Nat) : Bool :=
  let rates := strategies_in_play.map (fun s => ((winners.count s : ℚ)) / (num_games : ℚ))
  decide (max_rate rates - min_rate rates < 15 / 100)

/-- Specification-side restatement of the acquisition deduction loop,
written by primitive recursion following the spec's words: each returned
trait id is re-validated (discounted cost, recomputed against the current
trait list, at most the current balance) before being appended and paid
for; a failing id is silently skipped. -/
def acquisitionSpec (trait_db : TraitDB) (p : Player) : List String → Player
  | [] => p
  | tid :: rest =>
    match lookupTrait trait_db tid with
    | some trait =>
      if p.get_cost trait ≤ p.alleles then
        acquisitionSpec trait_db
          { p with traits := p.traits ++ [tid], alleles := p.alleles - p.get_cost trait }
          rest
      else acquisitionSpec trait_db p rest
    | none => acquisitionSpec trait_db p rest

/-- State-threading rendering of `generalist_strategy`, mirroring the
body statement by statement with the mutable arguments made explicit:
`sorted` allocates a fresh list (leaving `available` untouched), and the
greedy loop only reads `player` (through `get_cost`) while building the
local `acquired`/`remaining` accumulator.  The final values of the three
argument objects are returned alongside the output, so their preservation
can be stated. -/
def generalist_strategy_run (player : Player) (available : List Trait) (alleles : Int)
    (trait_db : TraitDB) : List String × Player × List Trait × TraitDB :=
  let sorted_traits := List.insertionSort (genRel player) available
  let acquired := greedyAcquire player sorted_traits alleles
  (acquired, player, available, trait_db)

/-- State-threading rendering of `specialist_strategy`; see
`generalist_strategy_run`. -/
def specialist_strategy_run (player : Player) (available : List Trait) (alleles : Int)
    (trait_db : TraitDB) (target_clade : String) :
    List String × Player × List Trait × TraitDB :=
  let target_traits := clade_paths target_clade
  let sorted_traits := List.insertionSort (specRel player target_traits) available
  let acquired := greedyAcquire player sorted_traits alleles
  (acquired, player, available, trait_db)

/-- A trait list is hard-prerequisite closed: every owned id that the
table resolves has all its hard prerequisites owned as well.  This is
exactly the condition checked by the available-traits filter. -/
def HardOK (trait_db : TraitDB) (owned : List String) : Prop :=
  ∀ tid ∈ owned, ∀ t, lookupTrait trait_db tid = some t →
    ∀ pr ∈ t.hard_prereqs, pr ∈ owned

/-- A concrete random tape used to instantiate the game-level theorems:
every die shows 1, every tile draw is 1, every starting budget is 5. -/
def testRand : GameRand :=
  { initAlleles := fun _ => 5,
    die1 := fun _ _ => 1,
    die2 := fun _ _ => 1,
    tiles := fun _ _ => 1,
    extinction_roll := fun _ _ => 1 }

/-- A trait table whose seed trait carries a negative fecundity bonus. -/
def negDb : TraitDB :=
  [{ id := "bilateral_symmetry", name := "Bilateral symmetry", era_min := 0, era_max := 11,
     cost := 1, complexity := 1, tags := [], hard_prereqs := [], soft_prereqs := [],
     fecundity_bonus := -100 }]

/-- A one-trait table granting the tag `"DoomTag"`. -/
def cexDb : TraitDB :=
  [{ id := "t_doom", name := "Doomed trait", era_min := 0, era_max := 11,
     cost := 0, complexity := 0, tags := ["DoomTag"], hard_prereqs := [], soft_prereqs := [],
     fecundity_bonus := 0 }]

/-- A player at exactly one marker owning the doomed trait. -/
def cexPlayer : Player :=
  { name := "P", traits := ["t_doom"], markers := 1, alleles := 0,
    tiles_controlled := 0, extinctions_survived := 0, strategy := "generalist" }

/-- An extinction event whose doomed tags match `cexPlayer`. -/
def cexEvent : Event :=
  { name := "ev", event_type := "extinction", safe_tags := [], doomed_tags := ["DoomTag"],
    neutral_roll := none }

/-- A one-trait table granting the tag `"SafeTag"`. -/
def safeDb : TraitDB :=
  [{ id := "t_safe", name := "Safe trait", era_min := 0, era_max := 11,
     cost := 0, complexity := 0, tags := ["SafeTag"], hard_prereqs := [], soft_prereqs := [],
     fecundity_bonus := 0 }]

/-- A player owning the safe trait. -/
def safePlayer : Player :=
  { name := "S", traits := ["t_safe"], markers := 6, alleles := 2,
    tiles_controlled := 1, extinctions_survived := 0, strategy := "generalist" }

/-- An extinction event whose safe and doomed tags both match
`safePlayer`. -/
def safeEvent : Event :=
  { name := "ev2", event_type := "extinction", safe_tags := ["SafeTag"],
    doomed_tags := ["SafeTag"], neutral_roll := some 4 }

/-- A player at five markers owning the doomed trait. -/
def lossPlayer : Player :=
  { name := "L", traits := ["t_doom"], markers := 5, alleles := 3,
    tiles_controlled := 2, extinctions_survived := 1, strategy := "Mammalia" }

/-- The expected state of the single player of a one-player game on the
`testRand` tape after one era. -/
def eraOnePlayer : Player :=
  { name := "Player 1", traits := ["bilateral_symmetry"], markers := 4, alleles := 7,
    tiles_controlled := 1, extinctions_survived := 0, strategy := "generalist" }

/-- The initial state of the single player of a one-player game on the
`testRand` tape. -/
def initOnePlayer : Player :=
  { name := "Player 1", traits := ["bilateral_symmetry"], markers := 3, alleles := 5,
    tiles_controlled := 0, extinctions_survived := 0, strategy := "generalist" }

/-- A two-trait table with one hard-prerequisite edge from the seed. -/
def chainDb : TraitDB :=
  [{ id := "bilateral_symmetry", name := "Bilateral symmetry", era_min := 0, era_max := 11,
     cost := 0, complexity := 1, tags := [], hard_prereqs := [], soft_prereqs := [],
     fecundity_bonus := 0 },
   { id := "t_next", name := "Next step", era_min := 0, era_max := 11,
     cost := 1, complexity := 2, tags := [], hard_prereqs := ["bilateral_symmetry"],
     soft_prereqs := [], fecundity_bonus := 0 }]

/-- The expected state of the single player of a one-player game on
`chainDb` after one era: the dependent trait was acquired. -/
def chainPlayer : Player :=
  { name := "Player 1", traits := ["bilateral_symmetry", "t_next"], markers := 4,
    alleles := 6, tiles_controlled := 1, extinctions_survived := 0,
    strategy := "generalist" }

/-! ### Basic lemmas about the extinction step -/

theorem simulate_extinction_frame (p : Player) (e : Event) (db : TraitDB) (roll : Int) :
    (simulate_extinction p e db roll).1.name = p.name ∧
    (simulate_extinction p e db roll).1.traits = p.traits ∧
    (simulate_extinction p e db roll).1.alleles = p.alleles ∧
    (simulate_extinction p e db roll).1.tiles_controlled = p.tiles_controlled ∧
    (simulate_extinction p e db roll).1.strategy = p.strategy := by
  simp only [simulate_extinction]
  split_ifs <;> simp

theorem simulate_extinction_markers (p : Player) (e : Event) (db : TraitDB) (roll : Int) :
    (simulate_extinction p e db roll).1.markers = p.markers ∨
    (simulate_extinction p e db roll).1.markers =
      max 1 (p.markers - Int.fdiv (p.markers + 1) 2) := by
  simp only [simulate_extinction]
  split_ifs <;> first
    | (left; simp; done)
    | (right; simp; done)

theorem fdiv_halving (m : Int) :
    max 1 (m - Int.fdiv (m + 1) 2) = max 1 (Int.fdiv m 2) := by
  rw [Int.fdiv_eq_ediv _ (by norm_num), Int.fdiv_eq_ediv _ (by norm_num)]
  omega

theorem loss_markers_bounds {m : Int} (h1 : 1 ≤ m) (h2 : m ≤ 12) :
    1 ≤ max 1 (m - Int.fdiv (m + 1) 2) ∧ max 1 (m - Int.fdiv (m + 1) 2) ≤ 12 := by
  rw [Int.fdiv_eq_ediv _ (by norm_num)]
  omega

/-! ### C3: safe tags take precedence -/

/-- C3: in every extinction resolution, a player whose owned-trait tags
intersect the event's `safe_tags` loses no markers and undergoes no state
change apart from the survival counter, and the call reports survival —
with no assumption about `doomed_tags`, whose overlap is irrelevant
because the safe check is made first. -/
theorem safe_tags_take_precedence (p : Player) (e : Event) (db : TraitDB) (roll : Int)
    (hsafe : (p.get_tags db).any (fun tg => e.safe_tags.contains tg) = true) :
    (simulate_extinction p e db roll).1.markers = p.markers ∧
    (simulate_extinction p e db roll).1.traits = p.traits ∧
    (simulate_extinction p e db roll).1.alleles = p.alleles ∧
    (simulate_extinction p e db roll).1.tiles_controlled = p.tiles_controlled ∧
    (simulate_extinction p e db roll).2 = true := by
  simp only [simulate_extinction]
  split_ifs
  · exact ⟨rfl, rfl, rfl, rfl, rfl⟩
  · exact ⟨rfl, rfl, rfl, rfl, rfl⟩

/-- Witness: a concrete player whose tags match both the safe and the
doomed list of the event keeps its markers and survives. -/
theorem safe_tags_take_precedence_witness :
    ((safePlayer.get_tags safeDb).any (fun tg => safeEvent.safe_tags.contains tg) = true) ∧
    ((safePlayer.get_tags safeDb).any (fun tg => safeEvent.doomed_tags.contains tg) = true) ∧
    ((simulate_extinction safePlayer safeEvent safeDb 1).1.markers = safePlayer.markers ∧
     (simulate_extinction safePlayer safeEvent safeDb 1).1.traits = safePlayer.traits ∧
     (simulate_extinction safePlayer safeEvent safeDb 1).1.alleles = safePlayer.alleles ∧
     (simulate_extinction safePlayer safeEvent safeDb 1).1.tiles_controlled =
       safePlayer.tiles_controlled ∧
     (simulate_extinction safePlayer safeEvent safeDb 1).2 = true) :=
  ⟨by decide, by decide, safe_tags_take_precedence safePlayer safeEvent safeDb 1 (by decide)⟩

/-! ### C10: the loss formula and the return flag -/

/-- C10 counterexample: at one marker a doomed-tag loss leaves the
markers unchanged (`max(1, 1-1) = 1`) yet the call returns `False`, so
"returns `True` exactly when the markers are unchanged" fails. -/
theorem extinction_flag_counterexample :
    ¬ (((simulate_extinction cexPlayer cexEvent cexDb 6).2 = true) ↔
        (simulate_extinction cexPlayer cexEvent cexDb 6).1.markers = cexPlayer.markers) := by
  decide

/-- C10 amended: in every extinction resolution where the player takes a
loss (a doomed-tag match, or a neutral roll below the threshold), the new
markers value is `max(1, markers − (markers+1) div 2) = max(1, markers div 2)`
(floor division), a player at exactly one marker loses nothing, and the
call returns `False` — so a `False` return does not imply a marker
change. -/
theorem extinction_loss_formula (p : Player) (e : Event) (db : TraitDB) (roll : Int)
    (hext : e.event_type = "extinction")
    (hsafe : (p.get_tags db).any (fun tg => e.safe_tags.contains tg) = false)
    (hloss : (p.get_tags db).any (fun tg => e.doomed_tags.contains tg) = true ∨
      roll < pyOrInt e.neutral_roll 4) :
    (simulate_extinction p e db roll).1.markers =
      max 1 (p.markers - Int.fdiv (p.markers + 1) 2) ∧
    (simulate_extinction p e db roll).1.markers = max 1 (Int.fdiv p.markers 2) ∧
    (simulate_extinction p e db roll).2 = false ∧
    (p.markers = 1 → (simulate_extinction p e db roll).1.markers = p.markers) := by
  have key : (simulate_extinction p e db roll).1.markers =
      max 1 (p.markers - Int.fdiv (p.markers + 1) 2) ∧
      (simulate_extinction p e db roll).2 = false := by
    simp only [simulate_extinction]
    split_ifs with h1 h2 h3 h4
    · exact absurd hext h1
    · rw [hsafe] at h2
      exact absurd h2 (by decide)
    · exact ⟨rfl, rfl⟩
    · exfalso
      rcases hloss with h | h
      · exact h3 h
      · omega
    · exact ⟨rfl, rfl⟩
  refine ⟨key.1, ?_, key.2, ?_⟩
  · rw [key.1, fdiv_halving]
  · intro h1
    rw [key.1, h1]
    decide

/-- Witness: a five-marker player with a doomed-tag match drops to
`max(1, 5 − 3) = max(1, 5 div 2) = 2` and the call returns `False`. -/
theorem extinction_loss_formula_witness :
    (cexEvent.event_type = "extinction") ∧
    ((lossPlayer.get_tags cexDb).any (fun tg => cexEvent.safe_tags.contains tg) = false) ∧
    ((lossPlayer.get_tags cexDb).any (fun tg => cexEvent.doomed_tags.contains tg) = true) ∧
    ((simulate_extinction lossPlayer cexEvent cexDb 6).1.markers =
      max 1 (lossPlayer.markers - Int.fdiv (lossPlayer.markers + 1) 2) ∧
     (simulate_extinction lossPlayer cexEvent cexDb 6).1.markers =
      max 1 (Int.fdiv lossPlayer.markers 2) ∧
     (simulate_extinction lossPlayer cexEvent cexDb 6).2 = false ∧
     (lossPlayer.markers = 1 →
      (simulate_extinction lossPlayer cexEvent cexDb 6).1.markers = lossPlayer.markers)) :=
  ⟨by decide, by decide, by decide,
    extinction_loss_formula lossPlayer cexEvent cexDb 6 (by decide) (by decide)
      (Or.inl (by decide))⟩

/-! ### Era-loop plumbing -/

theorem runErasUpTo_succ (db : TraitDB) (ev : List Event) (r : GameRand) (k : Nat)
    (ps : List Player) :
    runErasUpTo db ev r (k + 1) ps = eraStep db ev r k (runErasUpTo db ev r k ps) := by
  unfold runErasUpTo
  rw [List.range_succ, List.foldl_append]
  rfl

theorem eraStep_nil (db : TraitDB) (ev : List Event) (r : GameRand) (e : Nat) :
    eraStep db ev r e [] = [] := rfl

theorem runErasUpTo_nil (db : TraitDB) (ev : List Event) (r : GameRand) :
    ∀ k, runErasUpTo db ev r k [] = [] := by
  intro k
  induction k with
  | zero => rfl
  | succ n ih => rw [runErasUpTo_succ, ih, eraStep_nil]

/-! ### C2: no entry validation for a non-positive player count -/

/-- C2 (evidence for the code bug): `simulate_game` performs no entry
validation whatsoever.  For every non-positive player count it runs the
full 12-era loop over the empty player list and completes, producing an
empty ranking, an empty score list, and no winner entry (the Python code
instead raises `IndexError` only afterwards, at
`results["players"][0]`, modelled by the absent `winner`) — rather than
failing fast at entry with a descriptive rejection as the specification
demands. -/
theorem simulate_game_no_entry_validation (trait_db : TraitDB) (events : List Event)
    (r : GameRand) (num_players : Int) (h : num_players ≤ 0) :
    simulate_game num_players trait_db events r =
      { players := [], winner := none, scores := [] } := by
  have h0 : num_players.toNat = 0 := by omega
  have hinit : initPlayers num_players r = [] := by
    unfold initPlayers
    rw [h0]
    rfl
  unfold simulate_game
  simp only [hinit, runErasUpTo_nil, List.map_nil]
  rfl

/-- Witness for `simulate_game_no_entry_validation` at zero players. -/
theorem simulate_game_no_entry_validation_witness :
    ((0 : Int) ≤ 0) ∧
    simulate_game 0 negDb [] testRand = { players := [], winner := none, scores := [] } :=
  ⟨by decide, simulate_game_no_entry_validation negDb [] testRand 0 (by decide)⟩

/-! ### C4: the discounted cost formula and the deduction-time re-check -/

theorem foldl_count_eq_filter_length (c : String → Bool) :
    ∀ (l : List String) (n : Int),
      l.foldl (fun n pr => if c pr then n + 1 else n) n = n + ((l.filter c).length : Int) := by
  intro l
  induction l with
  | nil => simp
  | cons x xs ih =>
    intro n
    rw [List.foldl_cons, ih]
    by_cases h : c x <;> simp [List.filter_cons, h] <;> push_cast <;> ring

/-- C4: the discounted acquisition cost is
`max(0, cost − min(owned_soft_prereq_count, 3))`, and the acquisition
deduction loop of `simulate_game` equals its specification
`acquisitionSpec`: each chosen trait is appended and paid for only if its
discounted cost, recomputed against the player's current traits at
deduction time, is at most the current allele balance; a trait failing
the re-check is silently skipped. -/
theorem discounted_cost_and_budget_check :
    (∀ (p : Player) (t : Trait),
      p.get_cost t =
        max 0 (t.cost -
          min (((t.soft_prereqs.filter (fun pr => p.traits.contains pr)).length : Int)) 3)) ∧
    (∀ (trait_db : TraitDB) (acquired : List String) (p : Player),
      applyAcquisitions trait_db acquired p = acquisitionSpec trait_db p acquired) := by
  constructor
  · intro p t
    unfold Player.get_cost
    rw [foldl_count_eq_filter_length]
    rw [zero_add]
  · intro trait_db acquired
    induction acquired with
    | nil => intro p; rfl
    | cons tid rest ih =>
      intro p
      show List.foldl _ p (tid :: rest) = _
      rw [List.foldl_cons]
      unfold acquisitionSpec
      cases hl : lookupTrait trait_db tid with
      | none =>
        simp only [acquireStep, hl]
        exact ih p
      | some t =>
        simp only [acquireStep, hl]
        by_cases hc : p.get_cost t ≤ p.alleles
        · rw [if_pos hc]
          simpa [hc] using
            ih { p with traits := p.traits ++ [tid], alleles := p.alleles - p.get_cost t }
        · rw [if_neg hc]
          simpa [hc] using ih p

/-! ### C9: the strategy policies are pure and deterministic -/

/-- C9: the state-threading renderings of both strategy policies return
their mutable arguments (player, available list, trait table) unchanged
together with the chosen list, so neither policy mutates its inputs; and
since both are plain functions of their arguments, two calls on
identical inputs yield the identical ordered list of trait ids. -/
theorem strategy_policies_pure (player : Player) (available : List Trait) (alleles : Int)
    (trait_db : TraitDB) (target_clade : String) :
    generalist_strategy_run player available alleles trait_db =
      (generalist_strategy player available alleles trait_db, player, available, trait_db) ∧
    specialist_strategy_run player available alleles trait_db target_clade =
      (specialist_strategy player available alleles trait_db target_clade,
        player, available, trait_db) :=
  ⟨rfl, rfl⟩

/-! ### C5 counterexample: a negative fecundity bonus drives alleles negative -/

/-- C5 counterexample: with a trait table whose seed trait has
`fecundity_bonus = -100`, already the income phase of era 0 leaves a
player with a negative allele balance (5 + (1+1+0+0−100) = −93), so the
allele balance is not non-negative for arbitrary trait tables. -/
theorem alleles_negative_counterexample :
    ¬ ∀ p ∈ incomePhase negDb testRand 0 (initPlayers 1 testRand), 0 ≤ p.alleles := by
  decide

/-! ### C7 counterexample: zero-win strategies are missing from the tally -/

/-- C7 counterexample: over two games both won by `"Mammalia"` with all
four strategies in play, the claim's criterion (win-rate spread over
every strategy in play, zero-win ones included: 1.0 − 0.0 ≥ 0.15) says
imbalanced, but the code's verdict is balanced, because strategies with
zero wins never enter the `defaultdict` tally and hence not the minimum. -/
theorem balance_verdict_counterexample :
    balance_verdict ["Mammalia", "Mammalia"] 2 ≠
      balance_verdict_spec ["Mammalia", "Mammalia"] strategies 2 := by
  have hsw : strategy_wins ["Mammalia", "Mammalia"] = [("Mammalia", 2)] := by decide
  have c1 : (["Mammalia", "Mammalia"] : List String).count "generalist" = 0 := by decide
  have c2 : (["Mammalia", "Mammalia"] : List String).count "Mammalia" = 2 := by decide
  have c3 : (["Mammalia", "Mammalia"] : List String).count "Aves" = 0 := by decide
  have c4 : (["Mammalia", "Mammalia"] : List String).count "Crocodilia" = 0 := by decide
  have h1 : balance_verdict ["Mammalia", "Mammalia"] 2 = true := by
    unfold balance_verdict win_rates
    rw [hsw]
    norm_num [max_rate, min_rate]
  have h2 : balance_verdict_spec ["Mammalia", "Mammalia"] strategies 2 = false := by
    unfold balance_verdict_spec strategies
    simp only [List.map_cons, List.map_nil, c1, c2, c3, c4]
    norm_num [max_rate, min_rate]
  rw [h1, h2]
  decide

/-! ### Membership and frame lemmas for the era phases -/

theorem mem_mapWithIndex {f : Nat → Player → Player} :
    ∀ {i : Nat} {l : List Player} {q : Player}, q ∈ mapWithIndex f i l →
      ∃ j p, p ∈ l ∧ q = f j p := by
  intro i l
  induction l generalizing i with
  | nil => intro q h; exact absurd h (by simp [mapWithIndex])
  | cons a as ih =>
    intro q h
    rw [mapWithIndex] at h
    rcases List.mem_cons.mp h with h1 | h2
    · exact ⟨i, a, List.mem_cons_self a as, h1⟩
    · rcases ih h2 with ⟨j, p, hp, hq⟩
      exact ⟨j, p, List.mem_cons_of_mem _ hp, hq⟩

theorem mem_initPlayers {np : Int} {r : GameRand} {p : Player}
    (h : p ∈ initPlayers np r) :
    ∃ i : Nat,
      p = { name := "Player " ++ toString (i + 1),
            traits := ["bilateral_symmetry"],
            markers := 3,
            alleles := r.initAlleles i,
            tiles_controlled := 0,
            extinctions_survived := 0,
            strategy := strategies.getD (i % strategies.length) "generalist" } := by
  unfold initPlayers at h
  rcases List.mem_map.mp h with ⟨i, _, rfl⟩
  exact ⟨i, rfl⟩

theorem acquireStep_frame (trait_db : TraitDB) (tid : String) (p : Player) :
    (acquireStep trait_db p tid).markers = p.markers ∧
    (acquireStep trait_db p tid).tiles_controlled = p.tiles_controlled ∧
    (acquireStep trait_db p tid).name = p.name ∧
    (acquireStep trait_db p tid).strategy = p.strategy ∧
    (acquireStep trait_db p tid).extinctions_survived = p.extinctions_survived := by
  unfold acquireStep
  cases lookupTrait trait_db tid with
  | none => exact ⟨rfl, rfl, rfl, rfl, rfl⟩
  | some t =>
    dsimp only
    split_ifs with hc
    · exact ⟨rfl, rfl, rfl, rfl, rfl⟩
    · exact ⟨rfl, rfl, rfl, rfl, rfl⟩

theorem applyAcquisitions_frame (trait_db : TraitDB) :
    ∀ (acquired : List String) (p : Player),
      (applyAcquisitions trait_db acquired p).markers = p.markers ∧
      (applyAcquisitions trait_db acquired p).tiles_controlled = p.tiles_controlled ∧
      (applyAcquisitions trait_db acquired p).name = p.name ∧
      (applyAcquisitions trait_db acquired p).strategy = p.strategy ∧
      (applyAcquisitions trait_db acquired p).extinctions_survived =
        p.extinctions_survived := by
  intro acquired
  induction acquired with
  | nil => intro p; exact ⟨rfl, rfl, rfl, rfl, rfl⟩
  | cons tid rest ih =>
    intro p
    have e : applyAcquisitions trait_db (tid :: rest) p =
        applyAcquisitions trait_db rest (acquireStep trait_db p tid) := by
      unfold applyAcquisitions
      rw [List.foldl_cons]
    have h1 := acquireStep_frame trait_db tid p
    have h2 := ih (acquireStep trait_db p tid)
    rw [e]
    exact ⟨h2.1.trans h1.1, h2.2.1.trans h1.2.1, h2.2.2.1.trans h1.2.2.1,
      h2.2.2.2.1.trans h1.2.2.2.1, h2.2.2.2.2.trans h1.2.2.2.2⟩

/-! ### C1: markers stay within 1 and 12 -/

theorem eraStep_markers_inv (db : TraitDB) (ev : List Event) (r : GameRand) (e : Nat)
    (ps : List Player) (h : ∀ p ∈ ps, 1 ≤ p.markers ∧ p.markers ≤ 12) :
    ∀ q ∈ eraStep db ev r e ps, 1 ≤ q.markers ∧ q.markers ≤ 12 := by
  have inv1 : ∀ p ∈ incomePhase db r e ps, 1 ≤ p.markers ∧ p.markers ≤ 12 := by
    intro p hp
    unfold incomePhase at hp
    obtain ⟨j, p0, hp0, rfl⟩ := mem_mapWithIndex hp
    exact h p0 hp0
  have inv2 : ∀ p ∈ acquisitionPhase db e (incomePhase db r e ps),
      1 ≤ p.markers ∧ p.markers ≤ 12 := by
    intro p hp
    unfold acquisitionPhase at hp
    obtain ⟨p1, hp1, rfl⟩ := List.mem_map.mp hp
    rw [(applyAcquisitions_frame db (choose_acquisitions p1 e db) p1).1]
    exact inv1 p1 hp1
  have inv3 : ∀ p ∈ refreshPhase r e (acquisitionPhase db e (incomePhase db r e ps)),
      1 ≤ p.markers ∧ p.markers ≤ 12 := by
    intro p hp
    unfold refreshPhase at hp
    obtain ⟨j, p2, hp2, rfl⟩ := mem_mapWithIndex hp
    have h2 := inv2 p2 hp2
    show 1 ≤ min 12 (p2.markers + 1) ∧ min 12 (p2.markers + 1) ≤ 12
    omega
  intro q hq
  unfold eraStep eventPhase at hq
  obtain ⟨j, p3, hp3, rfl⟩ := mem_mapWithIndex hq
  have h3 := inv3 p3 hp3
  rcases simulate_extinction_markers p3 ((ev.getD e defaultEvent)) db
      (r.extinction_roll e j) with hc | hc
  · rw [hc]
    exact h3
  · rw [hc]
    exact loss_markers_bounds h3.1 h3.2

/-- C1: for every trait table, event list, random tape and player count,
after every era transition of the simulated game every player's markers
value stays within 1 and 12: the refresh caps it via `min(12, markers+1)`
and every extinction loss clamps it via `max(1, ...)`, starting from the
initial value 3. -/
theorem markers_always_in_range (trait_db : TraitDB) (events : List Event) (r : GameRand)
    (num_players : Int) :
    ∀ k, ∀ p ∈ runErasUpTo trait_db events r k (initPlayers num_players r),
      1 ≤ p.markers ∧ p.markers ≤ 12 := by
  intro k
  induction k with
  | zero =>
    intro p hp
    obtain ⟨i, rfl⟩ := mem_initPlayers hp
    exact ⟨by norm_num, by norm_num⟩
  | succ n ih =>
    rw [runErasUpTo_succ]
    exact eraStep_markers_inv trait_db events r n _ ih


/-- Witness for `markers_always_in_range`: the player of a concrete
one-player game after one era. -/
theorem markers_always_in_range_witness :
    eraOnePlayer ∈ runErasUpTo [] [] testRand 1 (initPlayers 1 testRand) ∧
    (1 ≤ eraOnePlayer.markers ∧ eraOnePlayer.markers ≤ 12) :=
  ⟨by decide, markers_always_in_range [] [] testRand 1 1 eraOnePlayer (by decide)⟩

/-! ### C5 (amended): alleles stay non-negative for non-negative fecundity tables -/

theorem get_fecundity_bonus_nonneg (db : TraitDB)
    (hfec : ∀ t ∈ db, 0 ≤ t.fecundity_bonus) (p : Player) :
    0 ≤ p.get_fecundity_bonus db := by
  unfold Player.get_fecundity_bonus
  suffices h : ∀ (l : List String) (acc : Int), 0 ≤ acc →
      0 ≤ l.foldl
        (fun acc tid =>
          match lookupTrait db tid with
          | some t => acc + t.fecundity_bonus
          | none => acc) acc by
    exact h p.traits 0 le_rfl
  intro l
  induction l with
  | nil => intro acc hacc; simpa using hacc
  | cons tid rest ih =>
    intro acc hacc
    rw [List.foldl_cons]
    apply ih
    cases hl : lookupTrait db tid with
    | none => simpa [hl] using hacc
    | some t =>
      have ht := hfec t (List.mem_of_find?_eq_some hl)
      simp only [hl]
      show 0 ≤ acc + t.fecundity_bonus
      omega

theorem simulate_allele_roll_nonneg (p : Player) (db : TraitDB) (d1 d2 : Int)
    (h1 : 1 ≤ d1) (h2 : 1 ≤ d2) (ht : 0 ≤ p.tiles_controlled)
    (hf : 0 ≤ p.get_fecundity_bonus db) :
    0 ≤ simulate_allele_roll p db d1 d2 := by
  simp only [simulate_allele_roll]
  split_ifs <;> omega

theorem acquireStep_alleles_nonneg (db : TraitDB) (tid : String) (p : Player)
    (h : 0 ≤ p.alleles) : 0 ≤ (acquireStep db p tid).alleles := by
  unfold acquireStep
  cases lookupTrait db tid with
  | none => exact h
  | some t =>
    dsimp only
    split_ifs with hc
    · simp only
      omega
    · exact h

theorem applyAcquisitions_alleles_nonneg (db : TraitDB) :
    ∀ (l : List String) (p : Player), 0 ≤ p.alleles →
      0 ≤ (applyAcquisitions db l p).alleles := by
  intro l
  induction l with
  | nil => intro p h; exact h
  | cons tid rest ih =>
    intro p h
    have e : applyAcquisitions db (tid :: rest) p =
        applyAcquisitions db rest (acquireStep db p tid) := by
      unfold applyAcquisitions
      rw [List.foldl_cons]
    rw [e]
    exact ih _ (acquireStep_alleles_nonneg db tid p h)

theorem eraStep_alleles_inv (db : TraitDB) (ev : List Event) (r : GameRand) (e : Nat)
    (ps : List Player)
    (hfec : ∀ t ∈ db, 0 ≤ t.fecundity_bonus)
    (hd1 : ∀ i, 1 ≤ r.die1 e i) (hd2 : ∀ i, 1 ≤ r.die2 e i)
    (htl : ∀ i, 1 ≤ r.tiles e i)
    (h : ∀ p ∈ ps, 0 ≤ p.alleles ∧ 0 ≤ p.tiles_controlled) :
    ∀ q ∈ eraStep db ev r e ps, 0 ≤ q.alleles ∧ 0 ≤ q.tiles_controlled := by
  have inv1 : ∀ p ∈ incomePhase db r e ps, 0 ≤ p.alleles ∧ 0 ≤ p.tiles_controlled := by
    intro p hp
    unfold incomePhase at hp
    obtain ⟨j, p0, hp0, rfl⟩ := mem_mapWithIndex hp
    have h0 := h p0 hp0
    have hroll := simulate_allele_roll_nonneg p0 db (r.die1 e j) (r.die2 e j)
      (hd1 j) (hd2 j) h0.2 (get_fecundity_bonus_nonneg db hfec p0)
    constructor
    · show 0 ≤ p0.alleles + simulate_allele_roll p0 db (r.die1 e j) (r.die2 e j)
      omega
    · exact h0.2
  have inv2 : ∀ p ∈ acquisitionPhase db e (incomePhase db r e ps),
      0 ≤ p.alleles ∧ 0 ≤ p.tiles_controlled := by
    intro p hp
    unfold acquisitionPhase at hp
    obtain ⟨p1, hp1, rfl⟩ := List.mem_map.mp hp
    have h1 := inv1 p1 hp1
    refine ⟨applyAcquisitions_alleles_nonneg db _ p1 h1.1, ?_⟩
    rw [(applyAcquisitions_frame db (choose_acquisitions p1 e db) p1).2.1]
    exact h1.2
  have inv3 : ∀ p ∈ refreshPhase r e (acquisitionPhase db e (incomePhase db r e ps)),
      0 ≤ p.alleles ∧ 0 ≤ p.tiles_controlled := by
    intro p hp
    unfold refreshPhase at hp
    obtain ⟨j, p2, hp2, rfl⟩ := mem_mapWithIndex hp
    have h2 := inv2 p2 hp2
    refine ⟨h2.1, ?_⟩
    show 0 ≤ r.tiles e j
    have := htl j
    omega
  intro q hq
  unfold eraStep eventPhase at hq
  obtain ⟨j, p3, hp3, rfl⟩ := mem_mapWithIndex hq
  have h3 := inv3 p3 hp3
  have hframe := simulate_extinction_frame p3 (ev.getD e defaultEvent) db (r.extinction_roll e j)
  rw [hframe.2.2.1, hframe.2.2.2.1]
  exact h3

/-- C5 amended: for trait tables in which every fecundity bonus is
non-negative (and random draws in their documented ranges: dice at least
1, tile draws at least 1, starting budgets at least 0), every player's
allele balance stays non-negative after every era transition: income is
then non-negative and the acquisition loop deducts a cost only after
checking it against the current balance.  The original claim's
quantification over arbitrary trait tables fails, see
`alleles_negative_counterexample`. -/
theorem alleles_nonneg_of_nonneg_fecundity (trait_db : TraitDB) (events : List Event)
    (r : GameRand) (num_players : Int)
    (hfec : ∀ t ∈ trait_db, 0 ≤ t.fecundity_bonus)
    (hinit : ∀ i, 0 ≤ r.initAlleles i)
    (hd1 : ∀ e i, 1 ≤ r.die1 e i) (hd2 : ∀ e i, 1 ≤ r.die2 e i)
    (htl : ∀ e i, 1 ≤ r.tiles e i) :
    ∀ k, ∀ p ∈ runErasUpTo trait_db events r k (initPlayers num_players r),
      0 ≤ p.alleles ∧ 0 ≤ p.tiles_controlled := by
  intro k
  induction k with
  | zero =>
    intro p hp
    obtain ⟨i, rfl⟩ := mem_initPlayers hp
    exact ⟨hinit i, by norm_num⟩
  | succ n ih =>
    rw [runErasUpTo_succ]
    exact eraStep_alleles_inv trait_db events r n _ hfec (hd1 n) (hd2 n) (htl n) ih

/-- Witness for `alleles_nonneg_of_nonneg_fecundity` on a concrete
one-player game. -/
theorem alleles_nonneg_of_nonneg_fecundity_witness :
    (∀ t ∈ ([] : TraitDB), 0 ≤ t.fecundity_bonus) ∧
    (∀ i, 0 ≤ testRand.initAlleles i) ∧
    (∀ e i, 1 ≤ testRand.die1 e i) ∧
    (∀ e i, 1 ≤ testRand.die2 e i) ∧
    (∀ e i, 1 ≤ testRand.tiles e i) ∧
    initOnePlayer ∈ runErasUpTo [] [] testRand 0 (initPlayers 1 testRand) ∧
    (0 ≤ initOnePlayer.alleles ∧ 0 ≤ initOnePlayer.tiles_controlled) := by
  have h1 : ∀ t ∈ ([] : TraitDB), 0 ≤ t.fecundity_bonus := by simp
  have h2 : ∀ i, 0 ≤ testRand.initAlleles i := fun i => by norm_num [testRand]
  have h3 : ∀ e i, 1 ≤ testRand.die1 e i := fun e i => by norm_num [testRand]
  have h4 : ∀ e i, 1 ≤ testRand.die2 e i := fun e i => by norm_num [testRand]
  have h5 : ∀ e i, 1 ≤ testRand.tiles e i := fun e i => by norm_num [testRand]
  exact ⟨h1, h2, h3, h4, h5, by decide,
    alleles_nonneg_of_nonneg_fecundity [] [] testRand 1 h1 h2 h3 h4 h5 0 initOnePlayer
      (by decide)⟩

/-! ### C6: scoring, ranking and winner declaration -/

theorem filter_orderedInsert_score (v : Int) (a : PlayerSummary) :
    ∀ l : List PlayerSummary,
      (List.orderedInsert rankRel a l).filter (fun s => s.score == v) =
        if a.score == v then a :: l.filter (fun s => s.score == v)
        else l.filter (fun s => s.score == v) := by
  intro l
  induction l with
  | nil =>
    by_cases hv : a.score == v <;> simp [List.orderedInsert, hv]
  | cons y ys ih =>
    by_cases h : rankRel a y
    · have e : List.orderedInsert rankRel a (y :: ys) = a :: y :: ys := by
        simp [List.orderedInsert, h]
      rw [e]
      by_cases hv : a.score == v <;> simp [List.filter_cons, hv]
    · have e : List.orderedInsert rankRel a (y :: ys) =
          y :: List.orderedInsert rankRel a ys := by
        simp [List.orderedInsert, h]
      rw [e]
      by_cases hy : y.score == v
      · have hv : ¬(a.score == v) := by
          have h1 : y.score = v := by simpa using hy
          have h2 : ¬(y.score ≤ a.score) := h
          simp only [beq_iff_eq]
          omega
        simp [List.filter_cons, hy, hv, ih]
      · by_cases hv : a.score == v <;> simp [List.filter_cons, hy, hv, ih]

theorem filter_insertionSort_score (v : Int) :
    ∀ l : List PlayerSummary,
      (List.insertionSort rankRel l).filter (fun s => s.score == v) =
        l.filter (fun s => s.score == v) := by
  intro l
  induction l with
  | nil => rfl
  | cons a l ih =>
    rw [List.insertionSort, filter_orderedInsert_score, ih]
    by_cases hv : a.score == v <;> simp [List.filter_cons, hv]

/-- C6: in every completed game, each player's score is
`markers × total complexity + 3 × tiles_controlled`; the reported
summaries are a permutation of the final players' summaries sorted in
descending score order; equal scores keep the players' creation order
(the filter at every score value is unchanged by the sort — stability);
and the declared winner is the name of the top-ranked entry. -/
theorem final_scoring_and_ranking (num_players : Int) (trait_db : TraitDB)
    (shuffled_events : List Event) (r : GameRand) :
    (∀ p : Player, p.score trait_db =
      p.markers * p.get_complexity trait_db + 3 * p.tiles_controlled) ∧
    List.Pairwise (fun a b => b.score ≤ a.score)
      (simulate_game num_players trait_db shuffled_events r).players ∧
    ((simulate_game num_players trait_db shuffled_events r).players).Perm
      ((runErasUpTo trait_db (shuffled_events.take 12) r 12
          (initPlayers num_players r)).map (mkSummary trait_db)) ∧
    (∀ v : Int,
      ((simulate_game num_players trait_db shuffled_events r).players).filter
          (fun s => s.score == v) =
        ((runErasUpTo trait_db (shuffled_events.take 12) r 12
            (initPlayers num_players r)).map (mkSummary trait_db)).filter
          (fun s => s.score == v)) ∧
    (simulate_game num_players trait_db shuffled_events r).winner =
      ((simulate_game num_players trait_db shuffled_events r).players).head?.map
        (fun s => s.name) := by
  simp only [simulate_game]
  refine ⟨?_, ?_, ?_, ?_, ?_⟩
  · intro p
    unfold Player.score
    ring
  · exact List.sorted_insertionSort rankRel _
  · exact List.perm_insertionSort rankRel _
  · intro v
    exact filter_insertionSort_score v _
  · trivial

/-! ### C7 (amended): the balance verdict over the tallied strategies -/

theorem foldl_max_mem : ∀ (l : List ℚ) (a : ℚ), l.foldl max a ∈ a :: l := by
  intro l
  induction l with
  | nil => intro a; simp
  | cons x xs ih =>
    intro a
    rw [List.foldl_cons]
    rcases List.mem_cons.mp (ih (max a x)) with h | h
    · rcases max_choice a x with hm | hm
      · rw [h, hm]; exact List.mem_cons_self _ _
      · rw [h, hm]; exact List.mem_cons_of_mem _ (List.mem_cons_self _ _)
    · exact List.mem_cons_of_mem _ (List.mem_cons_of_mem _ h)

theorem le_foldl_max : ∀ (l : List ℚ) (a x : ℚ), x ∈ a :: l → x ≤ l.foldl max a := by
  intro l
  induction l with
  | nil =>
    intro a x h
    rw [List.mem_singleton] at h
    simp [h]
  | cons y ys ih =>
    intro a x h
    rw [List.foldl_cons]
    rcases List.mem_cons.mp h with h1 | h2
    · have hx : x ≤ max a y := by rw [h1]; exact le_max_left a y
      exact hx.trans (ih (max a y) (max a y) (List.mem_cons_self _ _))
    · rcases List.mem_cons.mp h2 with h3 | h4
      · have hx : x ≤ max a y := by rw [h3]; exact le_max_right a y
        exact hx.trans (ih (max a y) (max a y) (List.mem_cons_self _ _))
      · exact ih (max a y) x (List.mem_cons_of_mem _ h4)

theorem foldl_min_mem : ∀ (l : List ℚ) (a : ℚ), l.foldl min a ∈ a :: l := by
  intro l
  induction l with
  | nil => intro a; simp
  | cons x xs ih =>
    intro a
    rw [List.foldl_cons]
    rcases List.mem_cons.mp (ih (min a x)) with h | h
    · rcases min_choice a x with hm | hm
      · rw [h, hm]; exact List.mem_cons_self _ _
      · rw [h, hm]; exact List.mem_cons_of_mem _ (List.mem_cons_self _ _)
    · exact List.mem_cons_of_mem _ (List.mem_cons_of_mem _ h)

theorem foldl_min_le : ∀ (l : List ℚ) (a x : ℚ), x ∈ a :: l → l.foldl min a ≤ x := by
  intro l
  induction l with
  | nil =>
    intro a x h
    rw [List.mem_singleton] at h
    simp [h]
  | cons y ys ih =>
    intro a x h
    rw [List.foldl_cons]
    rcases List.mem_cons.mp h with h1 | h2
    · have hx : min a y ≤ x := by rw [h1]; exact min_le_left a y
      exact (ih (min a y) (min a y) (List.mem_cons_self _ _)).trans hx
    · rcases List.mem_cons.mp h2 with h3 | h4
      · have hx : min a y ≤ x := by rw [h3]; exact min_le_right a y
        exact (ih (min a y) (min a y) (List.mem_cons_self _ _)).trans hx
      · exact ih (min a y) x (List.mem_cons_of_mem _ h4)

theorem max_rate_mem {rates : List ℚ} (h : rates ≠ []) : max_rate rates ∈ rates := by
  cases rates with
  | nil => exact absurd rfl h
  | cons x xs => exact foldl_max_mem xs x

theorem le_max_rate {rates : List ℚ} (x : ℚ) (hx : x ∈ rates) : x ≤ max_rate rates := by
  cases rates with
  | nil => exact absurd hx (List.not_mem_nil x)
  | cons a xs => exact le_foldl_max xs a x hx

theorem min_rate_mem {rates : List ℚ} (h : rates ≠ []) : min_rate rates ∈ rates := by
  cases rates with
  | nil => exact absurd rfl h
  | cons x xs => exact foldl_min_mem xs x

theorem min_rate_le {rates : List ℚ} (x : ℚ) (hx : x ∈ rates) : min_rate rates ≤ x := by
  cases rates with
  | nil => exact absurd hx (List.not_mem_nil x)
  | cons a xs => exact foldl_min_le xs a x hx

theorem strategy_wins_append (ws : List String) (s : String) :
    strategy_wins (ws ++ [s]) =
      if (strategy_wins ws).any (fun kv => kv.1 == s) then
        (strategy_wins ws).map (fun kv => if kv.1 == s then (kv.1, kv.2 + 1) else kv)
      else strategy_wins ws ++ [(s, 1)] := by
  unfold strategy_wins
  rw [List.foldl_append]
  rfl

theorem strategy_wins_spec :
    ∀ ws : List String,
      ((strategy_wins ws).map Prod.fst).Nodup ∧
      (∀ kv ∈ strategy_wins ws, kv.2 = ws.count kv.1 ∧ kv.1 ∈ ws) ∧
      (∀ s ∈ ws, s ∈ (strategy_wins ws).map Prod.fst) := by
  intro ws
  induction ws using List.reverseRecOn with
  | nil =>
    refine ⟨?_, ?_, ?_⟩ <;> simp [strategy_wins]
  | append_singleton ws s ih =>
    obtain ⟨hnd, hcount, hcover⟩ := ih
    rw [strategy_wins_append]
    by_cases hmem : (strategy_wins ws).any (fun kv => kv.1 == s) = true
    · rw [if_pos hmem]
      have keys_eq :
          ((strategy_wins ws).map (fun kv => if kv.1 == s then (kv.1, kv.2 + 1) else kv)).map
              Prod.fst =
            (strategy_wins ws).map Prod.fst := by
        rw [List.map_map]
        apply List.map_congr_left
        intro kv _
        simp only [Function.comp_apply]
        by_cases h : (kv.1 == s) = true
        · rw [if_pos h]
        · rw [if_neg h]
      have hs_mem : s ∈ (strategy_wins ws).map Prod.fst := by
        rcases List.any_eq_true.mp hmem with ⟨kv, hkv, hkv1⟩
        rw [beq_iff_eq] at hkv1
        exact hkv1 ▸ List.mem_map_of_mem Prod.fst hkv
      refine ⟨?_, ?_, ?_⟩
      · rw [keys_eq]; exact hnd
      · intro kv hkv
        rcases List.mem_map.mp hkv with ⟨kv0, hkv0, hkv0e⟩
        have h0 := hcount kv0 hkv0
        by_cases h : kv0.1 == s
        · rw [if_pos h] at hkv0e
          rw [beq_iff_eq] at h
          subst hkv0e
          constructor
          · show kv0.2 + 1 = (ws ++ [s]).count kv0.1
            rw [List.count_append, h0.1, h]
            simp
          · show kv0.1 ∈ ws ++ [s]
            exact List.mem_append_left _ h0.2
        · rw [if_neg h] at hkv0e
          subst hkv0e
          rw [beq_iff_eq] at h
          constructor
          · rw [List.count_append, h0.1]
            have : [s].count kv0.1 = 0 := by
              simp [List.count_singleton']
              exact fun hh => absurd hh.symm h
            rw [this]
            omega
          · exact List.mem_append_left _ h0.2
      · intro s' hs'
        rw [keys_eq]
        rcases List.mem_append.mp hs' with h | h
        · exact hcover s' h
        · rw [List.mem_singleton] at h
          exact h ▸ hs_mem
    · rw [if_neg hmem]
      have hs_not : s ∉ (strategy_wins ws).map Prod.fst := by
        intro hs
        rcases List.mem_map.mp hs with ⟨kv, hkv, hkve⟩
        exact hmem (List.any_eq_true.mpr ⟨kv, hkv, by rw [beq_iff_eq]; exact hkve⟩)
      have hs_not_ws : s ∉ ws := fun h => hs_not (hcover s h)
      refine ⟨?_, ?_, ?_⟩
      · rw [List.map_append]
        refine List.Nodup.append hnd (by simp) ?_
        intro a ha hb
        simp only [List.map_cons, List.map_nil, List.mem_singleton] at hb
        exact hs_not (hb ▸ ha)
      · intro kv hkv
        rcases List.mem_append.mp hkv with h | h
        · have h0 := hcount kv h
          have hne : kv.1 ≠ s := by
            intro hh
            exact hs_not (hh ▸ List.mem_map_of_mem Prod.fst h)
          constructor
          · rw [List.count_append, h0.1]
            have : [s].count kv.1 = 0 := by
              simp [List.count_singleton']
              exact fun hh => absurd hh.symm hne
            rw [this]
            omega
          · exact List.mem_append_left _ h0.2
        · rw [List.mem_singleton] at h
          subst h
          constructor
          · show 1 = (ws ++ [s]).count s
            rw [List.count_append]
            have h1 : ws.count s = 0 := List.count_eq_zero.mpr hs_not_ws
            have h2 : [s].count s = 1 := by simp
            rw [h1, h2]
          · exact List.mem_append_right _ (List.mem_singleton.mpr rfl)
      · intro s' hs'
        rw [List.map_append]
        rcases List.mem_append.mp hs' with h | h
        · exact List.mem_append_left _ (hcover s' h)
        · rw [List.mem_singleton] at h
          subst h
          exact List.mem_append_right _ (by simp)

theorem win_rates_ne_nil (winners : List String) (num_games : Nat)
    (h : winners ≠ []) : win_rates winners num_games ≠ [] := by
  unfold win_rates
  cases winners with
  | nil => exact absurd rfl h
  | cons w ws =>
    have hcov := (strategy_wins_spec (w :: ws)).2.2 w (List.mem_cons_self _ _)
    intro hempty
    rw [List.map_eq_nil_iff] at hempty
    rw [hempty] at hcov
    simp at hcov

/-- C7 amended: the `defaultdict` tally records exactly the strategies
with at least one win, each with its true win count (so its rate is
wins/N); the balance verdict compares the spread between the
maximum and the minimum of those tallied rates — strategies with zero
wins are absent from the tally and take no part in the minimum — and
flags balanced exactly when that spread is below 0.15.  The original
claim's minimum over every strategy in play fails, see
`balance_verdict_counterexample`. -/
theorem balance_verdict_amended (winners : List String) (num_games : Nat)
    (hne : winners ≠ []) :
    (∀ kv ∈ strategy_wins winners, kv.2 = winners.count kv.1 ∧ kv.1 ∈ winners) ∧
    max_rate (win_rates winners num_games) ∈ win_rates winners num_games ∧
    (∀ x ∈ win_rates winners num_games, x ≤ max_rate (win_rates winners num_games)) ∧
    min_rate (win_rates winners num_games) ∈ win_rates winners num_games ∧
    (∀ x ∈ win_rates winners num_games, min_rate (win_rates winners num_games) ≤ x) ∧
    (balance_verdict winners num_games = true ↔
      max_rate (win_rates winners num_games) - min_rate (win_rates winners num_games)
        < 15 / 100) := by
  refine ⟨(strategy_wins_spec winners).2.1,
    max_rate_mem (win_rates_ne_nil winners num_games hne),
    fun x hx => le_max_rate x hx,
    min_rate_mem (win_rates_ne_nil winners num_games hne),
    fun x hx => min_rate_le x hx, ?_⟩
  unfold balance_verdict
  exact ⟨of_decide_eq_true, fun h => decide_eq_true h⟩

/-- Witness for `balance_verdict_amended` on a one-game batch. -/
theorem balance_verdict_amended_witness :
    ((["generalist"] : List String) ≠ []) ∧
    ((∀ kv ∈ strategy_wins ["generalist"], kv.2 = (["generalist"] : List String).count kv.1 ∧
        kv.1 ∈ (["generalist"] : List String)) ∧
      max_rate (win_rates ["generalist"] 1) ∈ win_rates ["generalist"] 1 ∧
      (∀ x ∈ win_rates ["generalist"] 1, x ≤ max_rate (win_rates ["generalist"] 1)) ∧
      min_rate (win_rates ["generalist"] 1) ∈ win_rates ["generalist"] 1 ∧
      (∀ x ∈ win_rates ["generalist"] 1, min_rate (win_rates ["generalist"] 1) ≤ x) ∧
      (balance_verdict ["generalist"] 1 = true ↔
        max_rate (win_rates ["generalist"] 1) - min_rate (win_rates ["generalist"] 1)
          < 15 / 100)) :=
  ⟨by decide, balance_verdict_amended ["generalist"] 1 (by decide)⟩

/-! ### C8: hard prerequisites are closed over the acquired trait list -/

theorem lookupTrait_mem {db : TraitDB} {tid : String} {t : Trait}
    (h : lookupTrait db tid = some t) : t ∈ db ∧ t.id = tid := by
  refine ⟨List.mem_of_find?_eq_some h, ?_⟩
  have := List.find?_some h
  rwa [beq_iff_eq] at this

theorem trait_eq_of_id_eq (db : TraitDB)
    (hnd : (db.map (fun t : Trait => t.id)).Nodup) :
    ∀ a ∈ db, ∀ b ∈ db, a.id = b.id → a = b := by
  induction db with
  | nil => intro a ha; exact absurd ha (List.not_mem_nil a)
  | cons t rest ih =>
    rw [List.map_cons, List.nodup_cons] at hnd
    intro a ha b hb heq
    rcases List.mem_cons.mp ha with ha1 | ha2 <;> rcases List.mem_cons.mp hb with hb1 | hb2
    · rw [ha1, hb1]
    · subst ha1
      exact absurd (heq ▸ List.mem_map_of_mem (fun t : Trait => t.id) hb2) hnd.1
    · subst hb1
      exact absurd (heq ▸ List.mem_map_of_mem (fun t : Trait => t.id) ha2) hnd.1
    · exact ih hnd.2 a ha2 b hb2 heq

theorem mem_greedyAcquire_aux (p : Player) :
    ∀ (l : List Trait) (acc : List String × Int) (tid : String),
      tid ∈ (l.foldl
        (fun acc trait =>
          let cost := p.get_cost trait
          if cost ≤ acc.2 then (acc.1 ++ [trait.id], acc.2 - cost) else acc) acc).1 →
      tid ∈ acc.1 ∨ ∃ t ∈ l, t.id = tid := by
  intro l
  induction l with
  | nil => intro acc tid h; exact Or.inl h
  | cons tr rest ih =>
    intro acc tid h
    rw [List.foldl_cons] at h
    rcases ih _ tid h with h1 | h2
    · revert h1
      dsimp only
      split_ifs with hc
      · intro h1
        rcases List.mem_append.mp h1 with ha | hb
        · exact Or.inl ha
        · rw [List.mem_singleton] at hb
          exact Or.inr ⟨tr, List.mem_cons_self _ _, hb.symm⟩
      · intro h1
        exact Or.inl h1
    · rcases h2 with ⟨t, ht, hid⟩
      exact Or.inr ⟨t, List.mem_cons_of_mem _ ht, hid⟩

theorem mem_greedyAcquire {p : Player} {sorted_traits : List Trait} {alleles : Int}
    {tid : String} (h : tid ∈ greedyAcquire p sorted_traits alleles) :
    ∃ t ∈ sorted_traits, t.id = tid := by
  unfold greedyAcquire at h
  rcases mem_greedyAcquire_aux p sorted_traits ([], alleles) tid h with h1 | h2
  · exact absurd h1 (List.not_mem_nil tid)
  · exact h2

theorem choose_acquisitions_spec (p : Player) (era : Nat) (db : TraitDB) :
    ∀ tid ∈ choose_acquisitions p era db,
      ∃ t ∈ db, t.id = tid ∧
        (t.hard_prereqs.all (fun pr => p.traits.contains pr)) = true := by
  intro tid h
  unfold choose_acquisitions at h
  have hmem : ∃ t ∈ get_available_traits p (Int.ofNat era) db, t.id = tid := by
    by_cases hs : p.strategy = "generalist"
    · rw [if_pos hs] at h
      unfold generalist_strategy at h
      rcases mem_greedyAcquire h with ⟨t, ht, hid⟩
      exact ⟨t, (List.mem_insertionSort (genRel p)).mp ht, hid⟩
    · rw [if_neg hs] at h
      unfold specialist_strategy at h
      rcases mem_greedyAcquire h with ⟨t, ht, hid⟩
      exact ⟨t, (List.mem_insertionSort _).mp ht, hid⟩
  rcases hmem with ⟨t, ht, hid⟩
  unfold get_available_traits at ht
  rw [List.mem_filter] at ht
  obtain ⟨htdb, hcond⟩ := ht
  rw [Bool.and_eq_true] at hcond
  have hca := hcond.2
  unfold Player.can_acquire at hca
  split at hca
  · exact absurd hca (by decide)
  · exact ⟨t, htdb, hid, hca⟩

theorem applyAcquisitions_hardOK (db : TraitDB) :
    ∀ (acquired : List String) (p : Player),
      HardOK db p.traits →
      (∀ tid ∈ acquired, ∀ t, lookupTrait db tid = some t →
        ∀ pr ∈ t.hard_prereqs, pr ∈ p.traits) →
      HardOK db (applyAcquisitions db acquired p).traits ∧
      (∀ x ∈ p.traits, x ∈ (applyAcquisitions db acquired p).traits) := by
  intro acquired
  induction acquired with
  | nil => intro p h _; exact ⟨h, fun x hx => hx⟩
  | cons tid rest ih =>
    intro p h hacq
    have e : applyAcquisitions db (tid :: rest) p =
        applyAcquisitions db rest (acquireStep db p tid) := by
      unfold applyAcquisitions
      rw [List.foldl_cons]
    rw [e]
    have hsub : ∀ x ∈ p.traits, x ∈ (acquireStep db p tid).traits := by
      unfold acquireStep
      cases hl : lookupTrait db tid with
      | none => exact fun x hx => hx
      | some t =>
        dsimp only
        split_ifs with hc
        · exact fun x hx => List.mem_append_left _ hx
        · exact fun x hx => hx
    have hstep : HardOK db (acquireStep db p tid).traits := by
      unfold acquireStep
      cases hl : lookupTrait db tid with
      | none => exact h
      | some t =>
        dsimp only
        split_ifs with hc
        · show HardOK db (p.traits ++ [tid])
          intro tid' htid' t' hlt' pr hpr
          rcases List.mem_append.mp htid' with hin | hnew
          · exact List.mem_append_left _ (h tid' hin t' hlt' pr hpr)
          · rw [List.mem_singleton] at hnew
            rw [hnew] at hlt'
            rw [hl] at hlt'
            injection hlt' with hq
            rw [← hq] at hpr
            exact List.mem_append_left _ (hacq tid (List.mem_cons_self _ _) t hl pr hpr)
        · exact h
    have hacq' : ∀ tid' ∈ rest, ∀ t, lookupTrait db tid' = some t →
        ∀ pr ∈ t.hard_prereqs, pr ∈ (acquireStep db p tid).traits := by
      intro tid' h' t hlt pr hpr
      exact hsub pr (hacq tid' (List.mem_cons_of_mem _ h') t hlt pr hpr)
    rcases ih (acquireStep db p tid) hstep hacq' with ⟨h1, h2⟩
    exact ⟨h1, fun x hx => h2 x (hsub x hx)⟩

theorem eraStep_hardOK_inv (db : TraitDB) (ev : List Event) (r : GameRand) (e : Nat)
    (ps : List Player)
    (hnd : (db.map (fun t : Trait => t.id)).Nodup)
    (h : ∀ p ∈ ps, HardOK db p.traits) :
    ∀ q ∈ eraStep db ev r e ps, HardOK db q.traits := by
  have inv1 : ∀ p ∈ incomePhase db r e ps, HardOK db p.traits := by
    intro p hp
    unfold incomePhase at hp
    obtain ⟨j, p0, hp0, rfl⟩ := mem_mapWithIndex hp
    exact h p0 hp0
  have inv2 : ∀ p ∈ acquisitionPhase db e (incomePhase db r e ps), HardOK db p.traits := by
    intro p hp
    unfold acquisitionPhase at hp
    obtain ⟨p1, hp1, rfl⟩ := List.mem_map.mp hp
    refine (applyAcquisitions_hardOK db (choose_acquisitions p1 e db) p1 (inv1 p1 hp1) ?_).1
    intro tid htid t hlt pr hpr
    rcases choose_acquisitions_spec p1 e db tid htid with ⟨ta, hta_db, hta_id, hta_all⟩
    obtain ⟨ht_db, ht_id⟩ := lookupTrait_mem hlt
    have heq : t = ta := trait_eq_of_id_eq db hnd t ht_db ta hta_db (by rw [ht_id, hta_id])
    subst heq
    have := List.all_eq_true.mp hta_all pr hpr
    simpa using this
  have inv3 : ∀ p ∈ refreshPhase r e (acquisitionPhase db e (incomePhase db r e ps)),
      HardOK db p.traits := by
    intro p hp
    unfold refreshPhase at hp
    obtain ⟨j, p2, hp2, rfl⟩ := mem_mapWithIndex hp
    exact inv2 p2 hp2
  intro q hq
  unfold eraStep eventPhase at hq
  obtain ⟨j, p3, hp3, rfl⟩ := mem_mapWithIndex hq
  have h3 := inv3 p3 hp3
  have hframe := simulate_extinction_frame p3 (ev.getD e defaultEvent) db (r.extinction_roll e j)
  unfold HardOK
  rw [hframe.2.1]
  exact h3

/-- C8: for every trait table with distinct ids whose seed trait (if
present) has no hard prerequisites, after every era of a simulated game
every player's trait list is hard-prerequisite closed: every owned id
that the table resolves has all of its hard prerequisites owned as well —
so re-applying the hard-prerequisite check of the available-traits
filter to the final list finds no violation.  (The final list of a
completed game is the case `k = 12`.) -/
theorem hard_prereqs_closed (trait_db : TraitDB) (events : List Event) (r : GameRand)
    (num_players : Int)
    (hnd : (trait_db.map (fun t : Trait => t.id)).Nodup)
    (hseed : ∀ t, lookupTrait trait_db "bilateral_symmetry" = some t →
      t.hard_prereqs = []) :
    ∀ k, ∀ p ∈ runErasUpTo trait_db events r k (initPlayers num_players r),
      HardOK trait_db p.traits := by
  intro k
  induction k with
  | zero =>
    intro p hp
    obtain ⟨i, rfl⟩ := mem_initPlayers hp
    intro tid htid t hlt pr hpr
    rw [List.mem_singleton] at htid
    subst htid
    rw [hseed t hlt] at hpr
    exact absurd hpr (List.not_mem_nil pr)
  | succ n ih =>
    rw [runErasUpTo_succ]
    exact eraStep_hardOK_inv trait_db events r n _ hnd ih

/-- Witness for `hard_prereqs_closed`: after one era on the two-trait
chain table, the player owns both the seed and the dependent trait, and
the final list is hard-prerequisite closed. -/
theorem hard_prereqs_closed_witness :
    ((chainDb.map (fun t : Trait => t.id)).Nodup) ∧
    (∀ t, lookupTrait chainDb "bilateral_symmetry" = some t → t.hard_prereqs = []) ∧
    chainPlayer ∈ runErasUpTo chainDb [] testRand 1 (initPlayers 1 testRand) ∧
    HardOK chainDb chainPlayer.traits :=
  ⟨by decide, fun t h => by
      rw [show lookupTrait chainDb "bilateral_symmetry" =
        some { id := "bilateral_symmetry", name := "Bilateral symmetry", era_min := 0,
               era_max := 11, cost := 0, complexity := 1, tags := [], hard_prereqs := [],
               soft_prereqs := [], fecundity_bonus := 0 } from rfl] at h
      injection h with hq
      rw [hq.symm],
    by decide,
    hard_prereqs_closed chainDb [] testRand 1 (by decide)
      (fun t h => by
        rw [show lookupTrait chainDb "bilateral_symmetry" =
          some { id := "bilateral_symmetry", name := "Bilateral symmetry", era_min := 0,
                 era_max := 11, cost := 0, complexity := 1, tags := [], hard_prereqs := [],
                 soft_prereqs := [], fecundity_bonus := 0 } from rfl] at h
        injection h with hq
        rw [hq.symm])
      1 chainPlayer (by decide)⟩
